import Mathlib

/-!
A shallow embedding of the Hack assembler (`Assembler.cpp`) and proofs about it.

C++ strings are modelled as `List Char`; the input file is modelled as the list
of its newline-terminated lines (the file is assumed to end with a newline, the
conventional case, so a failed `getline` at end of file yields an empty string
and only then sets the eof bit).  `size_t` arithmetic (`std::string::npos`,
wrap-around subtraction) is modelled explicitly modulo 2^64.
-/

abbrev Str : Type := List Char

/-- The C `isspace` predicate in the default locale: space, tab, newline,
vertical tab, form feed, carriage return.  Used by `Parser::advance` via
`std::remove_if(..., ::isspace)`. -/
def isspaceChar (c : Char) : Bool :=
  c == ' ' || c == '\t' || c == '\n' || c == '\x0b' || c == '\x0c' || c == '\r'

/-- `currentCommand.substr(0, currentCommand.find("\x2f\x2f"))`: keep the part of the
line strictly before the first occurrence of two consecutive slashes. -/
def cutComment : Str → Str
  | [] => []
  | '/' :: '/' :: _ => []
  | c :: rest => c :: cutComment rest

/-- The whitespace/comment stripping performed by `Parser::advance`. -/
def stripLine (s : Str) : Str :=
  (cutComment s).filter (fun c => !isspaceChar c)

/-- `std::string::npos` as a 64-bit `size_t` value. -/
def npos : Nat := 2 ^ 64 - 1

/-- Index of the first occurrence of a character in a string
(`std::string::find(char)` returning an option instead of `npos`). -/
def findPos (c : Char) : Str → Option Nat
  | [] => none
  | x :: xs => if x = c then some 0 else (findPos c xs).map (· + 1)

/-- `std::string::find(char)` proper: first index, or `npos` when absent. -/
def posOf (c : Char) (s : Str) : Nat :=
  match findPos c s with
  | some i => i
  | none => npos

/-- `size_t` subtraction: `a - b` computed modulo 2^64 (wrap-around). -/
def sub64 (a b : Nat) : Nat :=
  (a + (2 ^ 64 - b % 2 ^ 64)) % 2 ^ 64

/-- `std::string::substr(pos, count)`: the at most `count` characters starting
at `pos`.  (All call sites in the program have `pos ≤ size`, so the
out-of-range exception of `substr` is never hit.) -/
def substr (s : Str) (pos count : Nat) : Str :=
  (s.drop pos).take count

/-- `std::stoi` restricted to the program's use: the call site guards on
`isdigit(symbol[0])`, so the string starts with a digit and `stoi` reads the
maximal leading run of digits.  Arbitrary precision is used here (the C++
function would throw `std::out_of_range` beyond `INT_MAX`; no claim exercises
that range). -/
def stoiDigits : Str → Nat → Nat
  | [], acc => acc
  | c :: rest, acc => if c.isDigit then stoiDigits rest (acc * 10 + (c.toNat - '0'.toNat)) else acc

def stoi (s : Str) : Nat := stoiDigits s 0

/-- `std::bitset<w>(n).to_string()`: the low `w` bits of `n`, most significant
first, as '0'/'1' characters.  (Taking bit `w - 1 - i` of `n` depends only on
`n` modulo `2 ^ w`, exactly as `bitset` truncates.) -/
def natToBin (w n : Nat) : Str :=
  (List.range w).map (fun i => if n / 2 ^ (w - 1 - i) % 2 = 1 then '1' else '0')

/-- `#define ADDRESS_LEN 15` -/
def ADDRESS_LEN : Nat := 15

/-- `#define VAR_ADDRESS 16` -/
def VAR_ADDRESS : Int := 16

/-! ## SymbolTable -/

/-- Pointwise update of a finite map modelled as a function
(`std::unordered_map` assignment `table[k] = v`). -/
def updateMap (m : Str → Option Int) (k : Str) (v : Int) : Str → Option Int :=
  fun k2 => if k2 = k then some v else m k2

/-- The state of `class SymbolTable`: the map and the `nextVariableAddress`
counter. -/
structure SymbolTable where
  table : Str → Option Int
  nextVariableAddress : Int

/-- The `SymbolTable` constructor: predefined symbols `SP`, `LCL`, `ARG`,
`THIS`, `THAT`, `R0`–`R15`, `SCREEN`, `KBD`. -/
def SymbolTable.init : SymbolTable :=
  let t : Str → Option Int := fun _ => none
  let t := updateMap t "SP".data 0
  let t := updateMap t "LCL".data 1
  let t := updateMap t "ARG".data 2
  let t := updateMap t "THIS".data 3
  let t := updateMap t "THAT".data 4
  let t := (List.range 16).foldl
    (fun acc i => updateMap acc ("R" ++ toString i).data (Int.ofNat i)) t
  let t := updateMap t "SCREEN".data 16384
  let t := updateMap t "KBD".data 24576
  { table := t, nextVariableAddress := VAR_ADDRESS }

/-- `SymbolTable::contains`. -/
def SymbolTable.contains (st : SymbolTable) (s : Str) : Bool :=
  (st.table s).isSome

/-- `SymbolTable::getAddress`: `return table[symbol];`.  `operator[]` on an
absent key value-initializes the mapped `int` to 0 and inserts it, so the
lookup both returns 0 and creates a binding; the pair returned here is
(result, table state afterwards). -/
def SymbolTable.getAddress (st : SymbolTable) (s : Str) : Int × SymbolTable :=
  match st.table s with
  | some a => (a, st)
  | none => (0, { st with table := updateMap st.table s 0 })

/-- `SymbolTable::addEntry`: unconditional `table[symbol] = address`. -/
def SymbolTable.addEntry (st : SymbolTable) (s : Str) (a : Int) : SymbolTable :=
  { st with table := updateMap st.table s a }

/-- `SymbolTable::addVariable`: if the symbol is absent, bind it to
`nextVariableAddress` and increment the counter; return the (now present)
binding. -/
def SymbolTable.addVariable (st : SymbolTable) (s : Str) : Int × SymbolTable :=
  match st.table s with
  | some a => (a, st)
  | none =>
      (st.nextVariableAddress,
       { table := updateMap st.table s st.nextVariableAddress,
         nextVariableAddress := st.nextVariableAddress + 1 })

/-! ## Code (the three encoder tables) -/

/-- `Code::initDestTable`, as the association list written in the source. -/
def destPairs : List (Str × Str) :=
  [("".data, "000".data), ("M".data, "001".data), ("D".data, "010".data),
   ("MD".data, "011".data), ("A".data, "100".data), ("AM".data, "101".data),
   ("AD".data, "110".data), ("AMD".data, "111".data)]

/-- `Code::initCompTable`, as the association list written in the source. -/
def compPairs : List (Str × Str) :=
  [("0".data, "0101010".data), ("1".data, "0111111".data), ("-1".data, "0111010".data),
   ("D".data, "0001100".data), ("A".data, "0110000".data), ("M".data, "1110000".data),
   ("!D".data, "0001101".data), ("!A".data, "0110001".data), ("!M".data, "1110001".data),
   ("-D".data, "0001111".data), ("-A".data, "0110011".data), ("-M".data, "1110011".data),
   ("D+1".data, "0011111".data), ("A+1".data, "0110111".data), ("M+1".data, "1110111".data),
   ("D-1".data, "0001110".data), ("A-1".data, "0110010".data), ("M-1".data, "1110010".data),
   ("D+A".data, "0000010".data), ("D+M".data, "1000010".data), ("D-A".data, "0010011".data),
   ("D-M".data, "1010011".data), ("A-D".data, "0000111".data), ("M-D".data, "1000111".data),
   ("D&A".data, "0000000".data), ("D&M".data, "1000000".data), ("D|A".data, "0010101".data),
   ("D|M".data, "1010101".data)]

/-- `Code::initJumpTable`, as the association list written in the source. -/
def jumpPairs : List (Str × Str) :=
  [("".data, "000".data), ("JGT".data, "001".data), ("JEQ".data, "010".data),
   ("JGE".data, "011".data), ("JLT".data, "100".data), ("JNE".data, "101".data),
   ("JLE".data, "110".data), ("JMP".data, "111".data)]

/-- `Code::dest`: `return destTable[mnemonic];`.  On a mnemonic outside the
table, `operator[]` default-inserts and returns the empty string; the inserted
empty string is observationally identical to the default on every later
lookup, so the table is modelled as a pure function. -/
def Code.dest (m : Str) : Str := (destPairs.lookup m).getD []

/-- `Code::comp`: `return compTable[mnemonic];` (empty string on a miss). -/
def Code.comp (m : Str) : Str := (compPairs.lookup m).getD []

/-- `Code::jump`: `return jumpTable[mnemonic];` (empty string on a miss). -/
def Code.jump (m : Str) : Str := (jumpPairs.lookup m).getD []

/-! ## Parser -/

/-- `enum CommandType`. -/
inductive CommandType
  | A_COMMAND
  | C_COMMAND
  | L_COMMAND
  | INVALID_COMMAND
deriving DecidableEq, Repr

/-- The state of `class Parser`.  `lines` and `eofbit` model the `ifstream`
(remaining newline-terminated lines and the stream's eof bit); the remaining
fields are the data members.  The C++ string members default-construct to
empty strings; `commandType` is an uninitialized enum with an indeterminate
value before the first successful `parseCommand`, modelled as `none` — a read
of it before any parse is undefined behaviour in the C++, and is modelled here
as matching none of the command-type branches of the pass loops. -/
structure ParserState where
  lines : List Str
  eofbit : Bool
  currentCommand : Str
  commandType : Option CommandType
  symbol : Str
  dest : Str
  comp : Str
  jump : Str

/-- `Parser::Parser`: opens the file positioned at its first line. -/
def Parser.initState (ls : List Str) : ParserState :=
  { lines := ls, eofbit := false, currentCommand := [],
    commandType := none, symbol := [], dest := [], comp := [], jump := [] }

/-- `Parser::hasMoreCommands`: `!file.eof()`. -/
def Parser.hasMoreCommands (st : ParserState) : Bool :=
  !st.eofbit

/-- `std::getline(file, currentCommand)`: pops the next line; at end of file
it extracts nothing, clears the target string and sets the eof bit. -/
def Parser.getline (st : ParserState) : ParserState :=
  match st.lines with
  | [] => { st with eofbit := true, currentCommand := [] }
  | l :: rest => { st with lines := rest, currentCommand := l }

/-- `Parser::parseCCommand`: positions of '=' and ';' are `size_t` values
(`npos` when absent) and the count `semiPos - eqPos - 1` wraps modulo 2^64
exactly as in C++. -/
def Parser.parseCCommand (st : ParserState) : ParserState :=
  let s := st.currentCommand
  let eqPos := posOf '=' s
  let semiPos := posOf ';' s
  let dc : Str × Str :=
    if eqPos ≠ npos then
      (substr s 0 eqPos, substr s (eqPos + 1) (sub64 (sub64 semiPos eqPos) 1))
    else
      ([], substr s 0 semiPos)
  let j : Str := if semiPos ≠ npos then substr s (semiPos + 1) npos else []
  { st with dest := dc.1, comp := dc.2, jump := j }

/-- `Parser::parseCommand`: classification of the (nonempty) stripped line.
Note which fields each branch leaves untouched: an address or label command
does not clear `dest`/`comp`/`jump`, a compute command does not clear
`symbol`, and the invalid branch only sets `commandType`. -/
def Parser.parseCommand (st : ParserState) : ParserState :=
  let s := st.currentCommand
  if s.head? = some '@' then
    { st with commandType := some CommandType.A_COMMAND, symbol := s.drop 1 }
  else if s.head? = some '(' ∧ s.getLast? = some ')' then
    { st with commandType := some CommandType.L_COMMAND,
              symbol := (s.drop 1).take (s.length - 2) }
  else if posOf '=' s ≠ npos ∨ posOf ';' s ≠ npos then
    Parser.parseCCommand { st with commandType := some CommandType.C_COMMAND }
  else
    { st with commandType := some CommandType.INVALID_COMMAND }

/-- `Parser::advance`: read a line, strip comments and whitespace, and parse
it when nonempty.  When the stripped line is empty (including the failed read
at end of file) no field beyond `currentCommand` changes, so the previous
command's type and fields remain visible to the caller. -/
def Parser.advance (st : ParserState) : ParserState :=
  if Parser.hasMoreCommands st then
    let st1 := Parser.getline st
    let st2 := { st1 with currentCommand := stripLine st1.currentCommand }
    if st2.currentCommand ≠ [] then Parser.parseCommand st2 else st2
  else st

/-! ## Assembler -/

/-- The loop of `Assembler::firstPass`.  The C++ `while (hasMoreCommands())`
loop runs at most `lines + 1` iterations — every iteration either consumes a
line or sets the eof bit — and the wrapper below supplies that bound as fuel,
so the fuel never runs out (`firstPassLoop_measure` makes this canonical). -/
def Assembler.firstPassLoop : Nat → ParserState → SymbolTable → Int → SymbolTable
  | 0, _, symt, _ => symt
  | fuel + 1, st, symt, rom =>
      if Parser.hasMoreCommands st then
        let st1 := Parser.advance st
        match st1.commandType with
        | some CommandType.L_COMMAND =>
            Assembler.firstPassLoop fuel st1 (symt.addEntry st1.symbol rom) rom
        | some CommandType.A_COMMAND =>
            Assembler.firstPassLoop fuel st1 symt (rom + 1)
        | some CommandType.C_COMMAND =>
            Assembler.firstPassLoop fuel st1 symt (rom + 1)
        | some CommandType.INVALID_COMMAND =>
            Assembler.firstPassLoop fuel st1 symt rom
        | none =>
            Assembler.firstPassLoop fuel st1 symt rom
      else symt

/-- `Assembler::firstPass`. -/
def Assembler.firstPass (ls : List Str) (symt : SymbolTable) : SymbolTable :=
  Assembler.firstPassLoop (ls.length + 1) (Parser.initState ls) symt 0

/-- `isdigit(symbol[0])`: on an empty string, `symbol[0]` is the defined
terminating null character, which is not a digit. -/
def headIsDigit (s : Str) : Bool :=
  match s.head? with
  | some c => c.isDigit
  | none => false

/-- The line emitted for an address command:
`"0" + std::bitset<ADDRESS_LEN>(address).to_string()`.  The `int` address is
converted to `unsigned long long` (reduction modulo 2^64) before `bitset`
keeps its low 15 bits. -/
def Assembler.emitA (address : Int) : Str :=
  '0' :: natToBin ADDRESS_LEN ((address % (2 ^ 64 : Int)).toNat)

/-- The loop of `Assembler::secondPass`, with the same fuel convention as
`Assembler.firstPassLoop`; `out` accumulates the emitted lines in order. -/
def Assembler.secondPassLoop : Nat → ParserState → SymbolTable → List Str → List Str
  | 0, _, _, out => out
  | fuel + 1, st, symt, out =>
      if Parser.hasMoreCommands st then
        let st1 := Parser.advance st
        match st1.commandType with
        | some CommandType.A_COMMAND =>
            let sym := st1.symbol
            let r : Int × SymbolTable :=
              if headIsDigit sym then ((stoi sym : Int), symt)
              else symt.addVariable sym
            Assembler.secondPassLoop fuel st1 r.2 (out ++ [Assembler.emitA r.1])
        | some CommandType.C_COMMAND =>
            let d := Code.dest st1.dest
            let c := Code.comp st1.comp
            let j := Code.jump st1.jump
            Assembler.secondPassLoop fuel st1 symt (out ++ ["111".data ++ c ++ d ++ j])
        | _ =>
            Assembler.secondPassLoop fuel st1 symt out
      else out

/-- `Assembler::secondPass`: the list of lines written to the output file. -/
def Assembler.secondPass (ls : List Str) (symt : SymbolTable) : List Str :=
  Assembler.secondPassLoop (ls.length + 1) (Parser.initState ls) symt []

/-- `Assembler::assemble`: first pass populates the label bindings, second
pass emits the instructions. -/
def Assembler.assemble (ls : List Str) : List Str :=
  Assembler.secondPass ls (Assembler.firstPass ls SymbolTable.init)

/-! ## Derived definitions used by the specification statements -/

/-- The `dest`/`comp`/`jump` fields produced by `Parser::parseCCommand` for a
given stripped line (the three fields depend only on `currentCommand`). -/
def parseCFields (s : Str) : Str × Str × Str :=
  let st := Parser.parseCCommand { (Parser.initState []) with currentCommand := s }
  (st.dest, st.comp, st.jump)

/-- The splitting described by the spec sentence: split on the first '='
(portion before is the destination, absent '=' means empty destination), then
split the REMAINDER on the first ';' (portion before is the computation,
portion after is the jump, absent ';' means empty jump). -/
def parseCFieldsSpec (s : Str) : Str × Str × Str :=
  let dr : Str × Str :=
    match findPos '=' s with
    | some i => (s.take i, s.drop (i + 1))
    | none => ([], s)
  match findPos ';' dr.2 with
  | some k => (dr.1, dr.2.take k, dr.2.drop (k + 1))
  | none => (dr.1, dr.2, [])

/-- The splitting the code actually performs: the jump is the portion after
the first ';' of the WHOLE stripped line (empty if ';' is absent); the
destination is the portion before the first '=' (empty if '=' is absent); the
computation is, when '=' is present, the text after it up to the first ';'
if that ';' lies after the '=' and to the end of the line otherwise, and,
when '=' is absent, the portion before the first ';' (the whole line if
neither occurs). -/
def parseCFieldsAmended (s : Str) : Str × Str × Str :=
  let d : Str :=
    match findPos '=' s with
    | some i => s.take i
    | none => []
  let c : Str :=
    match findPos '=' s, findPos ';' s with
    | some i, some k => if i < k then (s.drop (i + 1)).take (k - i - 1) else s.drop (i + 1)
    | some i, none => s.drop (i + 1)
    | none, some k => s.take k
    | none, none => s
  let j : Str :=
    match findPos ';' s with
    | some k => s.drop (k + 1)
    | none => []
  (d, c, j)

/-- A well-formed output line: exactly 16 characters, each '0' or '1'. -/
def lineOk (l : Str) : Bool :=
  l.length == 16 && l.all (fun c => c == '0' || c == '1')

/-- Membership in the destination encoder table's domain. -/
def inDestDomain (m : Str) : Bool := (destPairs.lookup m).isSome

/-- Membership in the computation encoder table's domain. -/
def inCompDomain (m : Str) : Bool := (compPairs.lookup m).isSome

/-- Membership in the jump encoder table's domain. -/
def inJumpDomain (m : Str) : Bool := (jumpPairs.lookup m).isSome

/-- A source line is benign for emission: if its stripped form is classified
as a compute command, the three extracted mnemonics lie in the encoder
tables' domains.  (The conditions replicate, in order, the classification
tests of `Parser::parseCommand`.) -/
def lineCGood (l : Str) : Bool :=
  let s := stripLine l
  if s = [] then true
  else if s.head? = some '@' then true
  else if s.head? = some '(' ∧ s.getLast? = some ')' then true
  else if posOf '=' s ≠ npos ∨ posOf ';' s ≠ npos then
    inDestDomain (parseCFields s).1 && inCompDomain (parseCFields s).2.1 &&
      inJumpDomain (parseCFields s).2.2
  else true

/-- Invariant carried through the second pass: whenever the parser reports a
compute command, the three mnemonic fields are in the encoder domains. -/
def cInv (st : ParserState) : Prop :=
  st.commandType = some CommandType.C_COMMAND →
    inDestDomain st.dest = true ∧ inCompDomain st.comp = true ∧ inJumpDomain st.jump = true

/-- Iterations the `while (hasMoreCommands())` loops can still run: each
iteration consumes a line or sets the eof bit. -/
def loopMeasure (st : ParserState) : Nat :=
  st.lines.length + (if st.eofbit then 0 else 1)

/-- The 23 predefined symbols with their documented addresses. -/
def predefinedPairs : List (Str × Int) :=
  [("SP".data, 0), ("LCL".data, 1), ("ARG".data, 2), ("THIS".data, 3), ("THAT".data, 4),
   ("R0".data, 0), ("R1".data, 1), ("R2".data, 2), ("R3".data, 3), ("R4".data, 4),
   ("R5".data, 5), ("R6".data, 6), ("R7".data, 7), ("R8".data, 8), ("R9".data, 9),
   ("R10".data, 10), ("R11".data, 11), ("R12".data, 12), ("R13".data, 13), ("R14".data, 14),
   ("R15".data, 15), ("SCREEN".data, 16384), ("KBD".data, 24576)]

/-- Decoding a destination bitfield by reversing the table. -/
def Code.destDecode (c : Str) : Option Str :=
  (destPairs.find? (fun p => p.2 == c)).map Prod.fst

/-- Decoding a computation bitfield by reversing the table. -/
def Code.compDecode (c : Str) : Option Str :=
  (compPairs.find? (fun p => p.2 == c)).map Prod.fst

/-- Decoding a jump bitfield by reversing the table. -/
def Code.jumpDecode (c : Str) : Option Str :=
  (jumpPairs.find? (fun p => p.2 == c)).map Prod.fst

/-- Run a sequence of `addVariable` calls (the only table mutation performed
by the second pass), keeping the final table state. -/
def runVars (st : SymbolTable) (names : List Str) : SymbolTable :=
  names.foldl (fun acc n => (acc.addVariable n).2) st

/-- First occurrences of a list's elements, skipping those already `seen`. -/
def firstOccs : List Str → List Str → List Str
  | [], _ => []
  | n :: rest, seen =>
      if n ∈ seen then firstOccs rest seen else n :: firstOccs rest (n :: seen)

/-- The distinct new names of a call sequence, in first-occurrence order:
those not bound in the starting table, deduplicated keeping the first
occurrence. -/
def freshList (st : SymbolTable) (names : List Str) : List Str :=
  firstOccs (names.filter (fun n => !(st.contains n))) []

/-- The symbol-table operations available during one translation run. -/
inductive TableOp
  | bindOp : Str → Int → TableOp
  | assignVar : Str → TableOp
  | containsQ : Str → TableOp
  | resolveQ : Str → TableOp

/-- Effect of one operation on the table state (`contains` is read-only;
`resolveQ` is `getAddress`, whose `operator[]` may insert). -/
def applyOp (st : SymbolTable) : TableOp → SymbolTable
  | TableOp.bindOp s a => st.addEntry s a
  | TableOp.assignVar s => (st.addVariable s).2
  | TableOp.containsQ _ => st
  | TableOp.resolveQ s => (st.getAddress s).2

/-- Effect of a sequence of operations. -/
def applyOps (st : SymbolTable) (ops : List TableOp) : SymbolTable :=
  ops.foldl applyOp st

/-! ## Theorems -/

/-- C1: the claim "the number of output lines equals the number of
AddressCommand plus ComputeCommand lines; label, invalid and blank lines
contribute zero output lines" fails on the code.  The source
`@2`, blank, `@3` has two address commands, but the blank line and the
end-of-file iteration each re-run the loop body on the parser's stale fields
(`advance` leaves `commandType` untouched when the stripped line is empty,
and `hasMoreCommands` is `!file.eof()`, which is still true after the last
line is consumed), so the previous instruction is emitted again: four lines
come out. -/
theorem assemble_blank_and_eof_duplicate_output :
    Assembler.assemble ["@2".data, [], "@3".data] =
      ["0000000000000010".data, "0000000000000010".data,
       "0000000000000011".data, "0000000000000011".data] ∧
    (Assembler.assemble ["@2".data, [], "@3".data]).length = 4 := by
  constructor <;> decide

/-- C3: the claim "pass 1 binds a label to the count of address/compute
commands that precede its declaration" fails on the code: in `@1`, blank,
`(L)` one instruction precedes the label, but the blank line re-runs the loop
body with the stale `A_COMMAND` type and increments the ROM counter again, so
`L` is bound to 2. -/
theorem firstPass_blank_line_inflates_label :
    (Assembler.firstPass ["@1".data, [], "(L)".data] SymbolTable.init).table "L".data =
      some 2 := by
  decide

/-- C5: the claim that `@2  D=A  @3  D=D+A  @0  M=D` produces exactly six
lines fails on the code: the first two lines are as documented, but the
end-of-file iteration re-emits the last instruction, so seven lines come
out. -/
theorem assemble_add_program_emits_seven_lines :
    Assembler.assemble
        ["@2".data, "D=A".data, "@3".data, "D=D+A".data, "@0".data, "M=D".data] =
      ["0000000000000010".data, "1110110000010000".data, "0000000000000011".data,
       "1110000010010000".data, "0000000000000000".data, "1110001100001000".data,
       "1110001100001000".data] ∧
    (Assembler.assemble
        ["@2".data, "D=A".data, "@3".data, "D=D+A".data, "@0".data, "M=D".data]).length
      = 7 := by
  constructor <;> decide

/-- C2 counterexample: not every emitted line is 16 characters of '0'/'1'.
For the program `D=X` the computation mnemonic `X` is outside the table, so
`compTable[mnemonic]` yields the default-inserted empty string and the emitted
line is `111010000`, 9 characters long. -/
theorem assemble_unknown_mnemonic_short_line :
    (Assembler.assemble ["D=X".data]).head? = some ("111010000".data) ∧
    ("111010000".data).length ≠ 16 := by
  constructor <;> decide

/-- C8 counterexample: the fields are NOT obtained by splitting the remainder
after '=' on its first ';'.  On `a;b=c` the code takes the jump from the
first ';' of the whole line (`b=c`), while the claimed splitting gives an
empty jump because the remainder `c` holds no ';'. -/
theorem parseCCommand_not_remainder_split :
    parseCFields "a;b=c".data = ("a;b".data, "c".data, "b=c".data) ∧
    parseCFieldsSpec "a;b=c".data = ("a;b".data, "c".data, []) ∧
    parseCFields "a;b=c".data ≠ parseCFieldsSpec "a;b=c".data := by
  refine ⟨by decide, by decide, by decide⟩

/-- C6: every predefined symbol is present in a freshly constructed symbol
table and resolves to its documented fixed address. -/
theorem predefined_symbols_bound :
    ∀ p ∈ predefinedPairs,
      SymbolTable.init.contains p.1 = true ∧
      (SymbolTable.init.getAddress p.1).1 = p.2 := by
  decide

/-- Witness for `predefined_symbols_bound` at the pair `(KBD, 24576)`. -/
theorem predefined_symbols_bound_witness :
    SymbolTable.init.contains "KBD".data = true ∧
    (SymbolTable.init.getAddress "KBD".data).1 = 24576 :=
  predefined_symbols_bound ("KBD".data, 24576) (by decide)

/-- C7: each of the three encoder tables is injective on its enumerated
domain: encoding a mnemonic and decoding the bitfield by reversing the
respective table recovers the mnemonic. -/
theorem encoder_tables_roundtrip :
    (∀ m ∈ destPairs.map Prod.fst, Code.destDecode (Code.dest m) = some m) ∧
    (∀ m ∈ compPairs.map Prod.fst, Code.compDecode (Code.comp m) = some m) ∧
    (∀ m ∈ jumpPairs.map Prod.fst, Code.jumpDecode (Code.jump m) = some m) := by
  refine ⟨by decide, by decide, by decide⟩

/-- Witness for `encoder_tables_roundtrip` at the jump mnemonic `JMP`. -/
theorem encoder_tables_roundtrip_witness :
    Code.jumpDecode (Code.jump "JMP".data) = some ("JMP".data) :=
  encoder_tables_roundtrip.2.2 ("JMP".data) (by decide)

/-- C10: `getAddress` on an unbound name returns 0 and, as a side effect of
`operator[]`, binds the name to 0, so `contains` is true immediately
afterwards and a later `addVariable` for the name returns 0 instead of
allocating a fresh variable address. -/
theorem getAddress_unbound_binds_zero :
    ∀ (st : SymbolTable) (s : Str), st.contains s = false →
      (st.getAddress s).1 = 0 ∧
      ((st.getAddress s).2).contains s = true ∧
      ((st.getAddress s).2).addVariable s = (0, (st.getAddress s).2) := by
  intro st s h
  have hnone : st.table s = none := by
    simpa [SymbolTable.contains, Option.isSome_iff_exists] using h
  refine ⟨?_, ?_, ?_⟩ <;>
    simp [SymbolTable.getAddress, SymbolTable.addVariable, SymbolTable.contains,
      hnone, updateMap]

/-- Witness for `getAddress_unbound_binds_zero` at the fresh name `i` on the
initial table. -/
theorem getAddress_unbound_binds_zero_witness :
    (SymbolTable.init.getAddress "i".data).1 = 0 ∧
    ((SymbolTable.init.getAddress "i".data).2).contains "i".data = true ∧
    ((SymbolTable.init.getAddress "i".data).2).addVariable "i".data =
      (0, (SymbolTable.init.getAddress "i".data).2) :=
  getAddress_unbound_binds_zero SymbolTable.init ("i".data) (by decide)

/-- One symbol-table operation never removes a binding. -/
theorem applyOp_preserves_contains (st : SymbolTable) (op : TableOp) (s : Str)
    (h : st.contains s = true) : (applyOp st op).contains s = true := by
  rcases op with ⟨k, a⟩ | k | k | k
  · simp only [applyOp, SymbolTable.addEntry, SymbolTable.contains, updateMap] at h ⊢
    split <;> simp [h]
  · simp only [applyOp, SymbolTable.addVariable]
    cases hk : st.table k with
    | some a => simpa [hk] using h
    | none =>
        simp only [hk, SymbolTable.contains, updateMap] at h ⊢
        split <;> simp [h]
  · simpa [applyOp] using h
  · simp only [applyOp, SymbolTable.getAddress]
    cases hk : st.table k with
    | some a => simpa [hk] using h
    | none =>
        simp only [hk, SymbolTable.contains, updateMap] at h ⊢
        split <;> simp [h]

/-- C9: the symbol table only grows.  Once `contains` is true for a name, it
stays true after any sequence of `addEntry`, `addVariable`, `contains` and
`getAddress` operations; no operation removes a binding. -/
theorem symbolTable_only_grows :
    ∀ (ops : List TableOp) (st : SymbolTable) (s : Str),
      st.contains s = true → (applyOps st ops).contains s = true := by
  intro ops
  induction ops with
  | nil => intro st s h; simpa [applyOps] using h
  | cons op rest ih =>
      intro st s h
      have h1 : (applyOp st op).contains s = true := applyOp_preserves_contains st op s h
      simpa [applyOps] using ih (applyOp st op) s h1

/-- Witness for `symbolTable_only_grows`: `SP` survives a label binding, a
variable assignment and a resolving lookup. -/
theorem symbolTable_only_grows_witness :
    (applyOps SymbolTable.init
      [TableOp.bindOp "LOOP".data 3, TableOp.assignVar "x".data,
       TableOp.resolveQ "y".data]).contains "SP".data = true :=
  symbolTable_only_grows
    [TableOp.bindOp "LOOP".data 3, TableOp.assignVar "x".data, TableOp.resolveQ "y".data]
    SymbolTable.init ("SP".data) (by decide)


/-- Unfolding lemma: the head of the list is already `seen`. -/
theorem firstOccs_cons_mem {n : Str} {rest seen : List Str} (h : n ∈ seen) :
    firstOccs (n :: rest) seen = firstOccs rest seen := by
  simp [firstOccs, h]

/-- Unfolding lemma: the head of the list is not yet `seen`. -/
theorem firstOccs_cons_not_mem {n : Str} {rest seen : List Str} (h : ¬ n ∈ seen) :
    firstOccs (n :: rest) seen = n :: firstOccs rest (n :: seen) := by
  simp [firstOccs, h]

/-- `firstOccs` only consults the membership of its `seen` argument. -/
theorem firstOccs_seen_congr :
    ∀ (l seen₁ seen₂ : List Str), (∀ x, x ∈ seen₁ ↔ x ∈ seen₂) →
      firstOccs l seen₁ = firstOccs l seen₂ := by
  intro l
  induction l with
  | nil => intro _ _ _; rfl
  | cons x xs ih =>
      intro seen₁ seen₂ hmem
      by_cases hx : x ∈ seen₁
      · rw [firstOccs_cons_mem hx, firstOccs_cons_mem ((hmem x).1 hx)]
        exact ih _ _ hmem
      · rw [firstOccs_cons_not_mem hx, firstOccs_cons_not_mem (fun h => hx ((hmem x).2 h))]
        refine congrArg (x :: ·) (ih _ _ ?_)
        intro y
        simp only [List.mem_cons]
        exact or_congr Iff.rfl (hmem y)

/-- Growing the `seen` set by one element is the same as pre-filtering that
element away. -/
theorem firstOccs_seen_cons (a : Str) :
    ∀ (l seen : List Str),
      firstOccs l (a :: seen) = firstOccs (l.filter (fun x => !(x == a))) seen := by
  intro l
  induction l with
  | nil => intro _; rfl
  | cons x xs ih =>
      intro seen
      by_cases hxa : x = a
      · subst hxa
        have hdrop : (x :: xs).filter (fun y => !(y == x)) =
            xs.filter (fun y => !(y == x)) := by
          simp [List.filter_cons]
        rw [firstOccs_cons_mem (List.mem_cons_self x seen), hdrop]
        exact ih seen
      · have hkeep : (x :: xs).filter (fun y => !(y == a)) =
            x :: xs.filter (fun y => !(y == a)) := by
          simp [List.filter_cons, hxa]
        by_cases hxs : x ∈ seen
        · rw [firstOccs_cons_mem (List.mem_cons.mpr (Or.inr hxs)), hkeep,
            firstOccs_cons_mem hxs]
          exact ih seen
        · have hxas : ¬ x ∈ a :: seen := by
            intro h
            rcases List.mem_cons.mp h with h1 | h2
            · exact hxa h1
            · exact hxs h2
          rw [firstOccs_cons_not_mem hxas, hkeep, firstOccs_cons_not_mem hxs]
          refine congrArg (x :: ·) ?_
          rw [firstOccs_seen_congr xs (x :: a :: seen) (a :: x :: seen)
                (by intro y; simp only [List.mem_cons]; tauto)]
          exact ih (x :: seen)

/-- Binding one fresh name and then filtering it away commutes with
filtering against the updated table. -/
theorem filter_fresh_update (l : List Str) (t : Str → Option Int) (n : Str) (v : Int) :
    (l.filter (fun m => !(t m).isSome)).filter (fun x => !(x == n)) =
      l.filter (fun m => !((updateMap t n v) m).isSome) := by
  rw [List.filter_filter]
  refine List.filter_congr ?_
  intro a _
  by_cases ha : a = n
  · subst ha; simp [updateMap]
  · simp [updateMap, ha]

/-- `addVariable` never overwrites an existing binding. -/
theorem runVars_keeps_binding :
    ∀ (names : List Str) (st : SymbolTable) (s : Str) (a : Int),
      st.table s = some a → (runVars st names).table s = some a := by
  intro names
  induction names with
  | nil => intro st s a h; simpa [runVars] using h
  | cons n rest ih =>
      intro st s a h
      have hstep : ((st.addVariable n).2).table s = some a := by
        cases hn : st.table n with
        | some b => simp [SymbolTable.addVariable, hn, h]
        | none =>
            by_cases hsn : s = n
            · subst hsn; rw [h] at hn; cases hn
            · simp [SymbolTable.addVariable, hn, updateMap, if_neg hsn, h]
      simpa [runVars] using ih _ s a hstep

/-- The i-th distinct new name of an `addVariable` call sequence ends bound
to `nextVariableAddress + i`. -/
theorem runVars_fresh_sequential :
    ∀ (names : List Str) (st : SymbolTable) (i : Nat) (x : Str),
      (freshList st names)[i]? = some x →
      (runVars st names).table x = some (st.nextVariableAddress + i) := by
  intro names
  induction names with
  | nil => intro st i x h; simp [freshList, List.filter, firstOccs] at h
  | cons n rest ih =>
      intro st i x h
      by_cases hc : st.contains n = true
      · have hfl : freshList st (n :: rest) = freshList st rest := by
          simp [freshList, List.filter_cons, hc]
        have hone : (st.addVariable n).2 = st := by
          rcases Option.isSome_iff_exists.mp (by simpa [SymbolTable.contains] using hc)
            with ⟨a, ha⟩
          simp [SymbolTable.addVariable, ha]
        have hrv : runVars st (n :: rest) = runVars st rest := by
          simp [runVars, List.foldl, hone]
        rw [hrv]
        exact ih st i x (by rw [← hfl]; exact h)
      · have hc' : st.contains n = false := by simpa using hc
        have hnone : st.table n = none := by
          cases hn : st.table n with
          | none => rfl
          | some b => rw [SymbolTable.contains, hn] at hc'; cases hc'
        have hadd : st.addVariable n =
            (st.nextVariableAddress,
             { table := updateMap st.table n st.nextVariableAddress,
               nextVariableAddress := st.nextVariableAddress + 1 }) := by
          simp [SymbolTable.addVariable, hnone]
        have hrv : runVars st (n :: rest) =
            runVars { table := updateMap st.table n st.nextVariableAddress,
                      nextVariableAddress := st.nextVariableAddress + 1 } rest := by
          simp [runVars, List.foldl, hadd]
        have hfilter : (n :: rest).filter (fun m => !(st.contains m)) =
            n :: rest.filter (fun m => !(st.contains m)) := by
          simp [List.filter_cons, hc']
        have hfl : freshList st (n :: rest) =
            n :: freshList { table := updateMap st.table n st.nextVariableAddress,
                             nextVariableAddress := st.nextVariableAddress + 1 } rest := by
          rw [freshList, hfilter, firstOccs_cons_not_mem (List.not_mem_nil n),
            firstOccs_seen_cons]
          refine congrArg (n :: ·) (congrArg (firstOccs · []) ?_)
          simpa [SymbolTable.contains] using
            filter_fresh_update rest st.table n st.nextVariableAddress
        rw [hrv]
        rw [hfl] at h
        cases i with
        | zero =>
            have hx : x = n := by
              simp only [List.getElem?_cons_zero, Option.some.injEq] at h
              exact h.symm
            have hbind : ({ table := updateMap st.table n st.nextVariableAddress,
                            nextVariableAddress := st.nextVariableAddress + 1 } :
                          SymbolTable).table x = some st.nextVariableAddress := by
              rw [hx]; simp [updateMap]
            simpa using
              runVars_keeps_binding rest _ x st.nextVariableAddress hbind
        | succ j =>
            simp only [List.getElem?_cons_succ] at h
            rw [ih _ j x h]
            congr 1
            push_cast
            ring

/-- C4: variable assignment during pass 2.  The variable counter starts at 16
(the freshly constructed table) and is untouched by pass 1's `addEntry`; over
any sequence of `addVariable` calls the i-th distinct new name (in
first-occurrence order) ends bound to `nextVariableAddress + i`, i.e. the new
names get 16, 17, 18, ... strictly increasing by one; and `addVariable` is
idempotent per name: a call with an already-bound name returns the existing
address and leaves the table unchanged. -/
theorem addVariable_sequential_idempotent :
    SymbolTable.init.nextVariableAddress = 16 ∧
    (∀ (st : SymbolTable) (s : Str) (a : Int),
        (st.addEntry s a).nextVariableAddress = st.nextVariableAddress) ∧
    (∀ (names : List Str) (st : SymbolTable) (i : Nat) (x : Str),
        (freshList st names)[i]? = some x →
        (runVars st names).table x = some (st.nextVariableAddress + i)) ∧
    (∀ (st : SymbolTable) (s : Str) (a : Int),
        st.table s = some a → st.addVariable s = (a, st)) :=
  ⟨rfl, fun _ _ _ => rfl, runVars_fresh_sequential,
   fun st s a h => by simp [SymbolTable.addVariable, h]⟩

/-- Witness for `addVariable_sequential_idempotent`: over the call sequence
`x`, `y`, `x` on the initial table the second distinct new name `y` is bound
to 16 + 1, and `addVariable` on the predefined `SP` returns its existing
address 0 without changing the table. -/
theorem addVariable_sequential_idempotent_witness :
    (runVars SymbolTable.init ["x".data, "y".data, "x".data]).table "y".data =
      some (SymbolTable.init.nextVariableAddress + 1) ∧
    SymbolTable.init.addVariable "SP".data = (0, SymbolTable.init) :=
  ⟨addVariable_sequential_idempotent.2.2.1 ["x".data, "y".data, "x".data]
      SymbolTable.init 1 ("y".data) (by decide),
   addVariable_sequential_idempotent.2.2.2 SymbolTable.init ("SP".data) 0 (by decide)⟩

/-- A found position lies inside the string. -/
theorem findPos_lt_length (c : Char) :
    ∀ (s : Str) (i : Nat), findPos c s = some i → i < s.length := by
  intro s
  induction s with
  | nil => intro i h; cases h
  | cons x xs ih =>
      intro i h
      by_cases hx : x = c
      · simp only [findPos, if_pos hx, Option.some.injEq] at h
        simp [← h]
      · simp only [findPos, if_neg hx, Option.map_eq_some'] at h
        rcases h with ⟨j, hj, rfl⟩
        have := ih j hj
        simp only [List.length_cons]
        omega


/-- The three fields of `parseCFields`, written out. -/
theorem parseCFields_def (s : Str) :
    parseCFields s =
      ((if posOf '=' s ≠ npos then substr s 0 (posOf '=' s) else []),
       (if posOf '=' s ≠ npos then
          substr s (posOf '=' s + 1) (sub64 (sub64 (posOf ';' s) (posOf '=' s)) 1)
        else substr s 0 (posOf ';' s)),
       (if posOf ';' s ≠ npos then substr s (posOf ';' s + 1) npos else [])) := by
  simp only [parseCFields, Parser.parseCCommand]
  by_cases hE : posOf '=' s ≠ npos <;> by_cases hS : posOf ';' s ≠ npos
  · rw [if_pos hE, if_pos hE, if_pos hE, if_pos hS]
  · rw [if_pos hE, if_pos hE, if_pos hE, if_neg hS]
  · rw [if_neg hE, if_neg hE, if_neg hE, if_pos hS]
  · rw [if_neg hE, if_neg hE, if_neg hE, if_neg hS]

/-- C8 (amended): for every stripped line of C++-representable length
(shorter than 2^64 characters), the classifier's compute-command fields are:
the destination is the portion before the first '=' (empty if '=' is absent);
the jump is the portion after the first ';' of the WHOLE line (empty if ';'
is absent); the computation is, when '=' is present, the text after it up to
the first ';' when that ';' lies after the '=' and to the end of the line
otherwise, and, when '=' is absent, the portion before the first ';'. -/
theorem parseCCommand_whole_line_split (s : Str) (hlen : s.length < 2 ^ 64) :
    parseCFields s = parseCFieldsAmended s := by
  have h64 : (2 : Nat) ^ 64 = 18446744073709551616 := by norm_num
  have hsub : ∀ a b : Nat, sub64 a b =
      (a + (18446744073709551616 - b % 18446744073709551616)) % 18446744073709551616 := by
    intro a b; rw [sub64, h64]
  have hnpos : npos = 18446744073709551615 := by rw [npos, h64]
  rw [h64] at hlen
  rw [parseCFields_def]
  rcases hE : findPos '=' s with _ | i <;> rcases hS : findPos ';' s with _ | k
  · -- no '=', no ';'
    have he : posOf '=' s = npos := by rw [posOf, hE]
    have hs : posOf ';' s = npos := by rw [posOf, hS]
    rw [he, hs]
    simp only [parseCFieldsAmended, hE, hS, ne_eq, not_true_eq_false, if_false,
      substr, List.drop_zero, Prod.mk.injEq]
    refine ⟨trivial, ?_, trivial⟩
    exact List.take_of_length_le (by omega)
  · -- no '=', ';' at k
    have hk := findPos_lt_length ';' s k hS
    have he : posOf '=' s = npos := by rw [posOf, hE]
    have hs : posOf ';' s = k := by rw [posOf, hS]
    have hkn : k ≠ npos := by omega
    rw [he, hs]
    simp only [parseCFieldsAmended, hE, hS, ne_eq, not_true_eq_false, if_false, hkn,
      not_false_eq_true, if_true, substr, List.drop_zero, Prod.mk.injEq]
    refine ⟨trivial, trivial, ?_⟩
    refine List.take_of_length_le ?_
    have hd : (s.drop (k + 1)).length = s.length - (k + 1) := by simp
    omega
  · -- '=' at i, no ';'
    have hi := findPos_lt_length '=' s i hE
    have he : posOf '=' s = i := by rw [posOf, hE]
    have hs : posOf ';' s = npos := by rw [posOf, hS]
    have hin : i ≠ npos := by omega
    rw [he, hs]
    simp only [parseCFieldsAmended, hE, hS, ne_eq, not_true_eq_false, if_false, hin,
      not_false_eq_true, if_true, substr, List.drop_zero, Prod.mk.injEq]
    refine ⟨trivial, ?_, trivial⟩
    refine List.take_of_length_le ?_
    have hd : (s.drop (i + 1)).length = s.length - (i + 1) := by simp
    rw [hsub, hsub, hnpos]
    omega
  · -- '=' at i, ';' at k
    have hi := findPos_lt_length '=' s i hE
    have hk := findPos_lt_length ';' s k hS
    have he : posOf '=' s = i := by rw [posOf, hE]
    have hs : posOf ';' s = k := by rw [posOf, hS]
    have hin : i ≠ npos := by omega
    have hkn : k ≠ npos := by omega
    rw [he, hs]
    simp only [parseCFieldsAmended, hE, hS, ne_eq, hin, hkn, not_false_eq_true,
      if_true, substr, List.drop_zero, Prod.mk.injEq]
    refine ⟨trivial, ?_, ?_⟩
    swap
    · refine List.take_of_length_le ?_
      have hd : (s.drop (k + 1)).length = s.length - (k + 1) := by simp
      omega
    by_cases hik : i < k
    · rw [if_pos hik]
      have hc : sub64 (sub64 k i) 1 = k - i - 1 := by
        rw [hsub, hsub]
        omega
      rw [hc]
    · rw [if_neg hik]
      refine List.take_of_length_le ?_
      have hd : (s.drop (i + 1)).length = s.length - (i + 1) := by simp
      rw [hsub, hsub]
      omega

/-- Witness for `parseCCommand_whole_line_split` at the line `D=M;JGT`. -/
theorem parseCCommand_whole_line_split_witness :
    parseCFields "D=M;JGT".data = parseCFieldsAmended "D=M;JGT".data :=
  parseCCommand_whole_line_split ("D=M;JGT".data) (by norm_num)

/-- A successful association-list lookup comes from a member pair. -/
theorem lookup_mem :
    ∀ (l : List (Str × Str)) (k v : Str), l.lookup k = some v → (k, v) ∈ l := by
  intro l
  induction l with
  | nil => intro k v h; cases h
  | cons p rest ih =>
      intro k v h
      rcases p with ⟨a, b⟩
      rw [List.lookup] at h
      cases hab : k == a with
      | true =>
          rw [hab] at h
          have ha : k = a := by simpa using hab
          have hb : b = v := by simpa using h
          subst ha; subst hb
          exact List.mem_cons_self _ _
      | false =>
          rw [hab] at h
          exact List.mem_cons_of_mem _ (ih k v h)

/-- Every destination bitfield in the table is 3 characters of '0'/'1'. -/
theorem destPairs_values :
    ∀ p ∈ destPairs, p.2.length = 3 ∧ p.2.all (fun c => c == '0' || c == '1') = true := by
  decide

/-- Every computation bitfield in the table is 7 characters of '0'/'1'. -/
theorem compPairs_values :
    ∀ p ∈ compPairs, p.2.length = 7 ∧ p.2.all (fun c => c == '0' || c == '1') = true := by
  decide

/-- Every jump bitfield in the table is 3 characters of '0'/'1'. -/
theorem jumpPairs_values :
    ∀ p ∈ jumpPairs, p.2.length = 3 ∧ p.2.all (fun c => c == '0' || c == '1') = true := by
  decide

/-- `Code::dest` on an in-domain mnemonic yields 3 bits. -/
theorem dest_code_ok (m : Str) (h : inDestDomain m = true) :
    (Code.dest m).length = 3 ∧ (Code.dest m).all (fun c => c == '0' || c == '1') = true := by
  have h0 : (destPairs.lookup m).isSome = true := h
  rcases Option.isSome_iff_exists.mp h0 with ⟨v, hv⟩
  have hm := lookup_mem destPairs m v hv
  have := destPairs_values (m, v) hm
  simpa [Code.dest, hv] using this

/-- `Code::comp` on an in-domain mnemonic yields 7 bits. -/
theorem comp_code_ok (m : Str) (h : inCompDomain m = true) :
    (Code.comp m).length = 7 ∧ (Code.comp m).all (fun c => c == '0' || c == '1') = true := by
  have h0 : (compPairs.lookup m).isSome = true := h
  rcases Option.isSome_iff_exists.mp h0 with ⟨v, hv⟩
  have hm := lookup_mem compPairs m v hv
  have := compPairs_values (m, v) hm
  simpa [Code.comp, hv] using this

/-- `Code::jump` on an in-domain mnemonic yields 3 bits. -/
theorem jump_code_ok (m : Str) (h : inJumpDomain m = true) :
    (Code.jump m).length = 3 ∧ (Code.jump m).all (fun c => c == '0' || c == '1') = true := by
  have h0 : (jumpPairs.lookup m).isSome = true := h
  rcases Option.isSome_iff_exists.mp h0 with ⟨v, hv⟩
  have hm := lookup_mem jumpPairs m v hv
  have := jumpPairs_values (m, v) hm
  simpa [Code.jump, hv] using this

/-- `bitset<w>.to_string` has exactly `w` characters. -/
theorem natToBin_length (w n : Nat) : (natToBin w n).length = w := by
  simp [natToBin]

/-- `bitset<w>.to_string` consists of '0'/'1' characters. -/
theorem natToBin_bits (w n : Nat) :
    (natToBin w n).all (fun c => c == '0' || c == '1') = true := by
  simp only [natToBin, List.all_eq_true, List.mem_map]
  rintro c ⟨i, hi, rfl⟩
  split_ifs <;> rfl

/-- An emitted address instruction is a well-formed 16-bit line. -/
theorem emitA_lineOk (a : Int) : lineOk (Assembler.emitA a) = true := by
  simp [lineOk, Assembler.emitA, natToBin_length, natToBin_bits, ADDRESS_LEN]

/-- An emitted compute instruction with in-domain mnemonics is a well-formed
16-bit line. -/
theorem cEmit_lineOk (d c j : Str)
    (hd : inDestDomain d = true) (hc : inCompDomain c = true) (hj : inJumpDomain j = true) :
    lineOk ("111".data ++ Code.comp c ++ Code.dest d ++ Code.jump j) = true := by
  obtain ⟨hdl, hdb⟩ := dest_code_ok d hd
  obtain ⟨hcl, hcb⟩ := comp_code_ok c hc
  obtain ⟨hjl, hjb⟩ := jump_code_ok j hj
  simp [lineOk, List.length_append, List.all_append, hdl, hcl, hjl, hdb, hcb, hjb]

/-- The fields set by `parseCCommand` depend only on `currentCommand`. -/
theorem parseCCommand_fields (st : ParserState) :
    ((Parser.parseCCommand st).dest, (Parser.parseCCommand st).comp,
      (Parser.parseCCommand st).jump) = parseCFields st.currentCommand := rfl

/-- `parseCCommand` does not change the command type. -/
theorem parseCCommand_commandType (st : ParserState) :
    (Parser.parseCCommand st).commandType = st.commandType := rfl

/-- `Parser::advance` preserves the compute-field invariant when every
remaining line is benign, whatever fields it leaves stale. -/
theorem advance_cInv (st : ParserState)
    (hl : ∀ l ∈ st.lines, lineCGood l = true) (hinv : cInv st) :
    cInv (Parser.advance st) ∧ ∀ l ∈ (Parser.advance st).lines, lineCGood l = true := by
  obtain ⟨lines0, eof0, cc0, ct0, sym0, d0, c0, j0⟩ := st
  by_cases hm : Parser.hasMoreCommands ⟨lines0, eof0, cc0, ct0, sym0, d0, c0, j0⟩ = true
  · cases lines0 with
    | nil =>
        have hadv : Parser.advance ⟨[], eof0, cc0, ct0, sym0, d0, c0, j0⟩ =
            ⟨[], true, [], ct0, sym0, d0, c0, j0⟩ := by
          simp [Parser.advance, hm, Parser.getline, stripLine, cutComment]
        rw [hadv]
        refine ⟨fun hc => hinv hc, ?_⟩
        intro x hx
        cases hx
    | cons l rest =>
        have hgood : lineCGood l = true := hl l (List.mem_cons_self l rest)
        have hrest : ∀ x ∈ rest, lineCGood x = true :=
          fun x hx => hl x (List.mem_cons_of_mem l hx)
        have hadv : Parser.advance ⟨l :: rest, eof0, cc0, ct0, sym0, d0, c0, j0⟩ =
            (if stripLine l ≠ [] then
               Parser.parseCommand ⟨rest, eof0, stripLine l, ct0, sym0, d0, c0, j0⟩
             else ⟨rest, eof0, stripLine l, ct0, sym0, d0, c0, j0⟩) := by
          simp [Parser.advance, hm, Parser.getline]
        by_cases hempty : stripLine l = []
        · rw [hadv, if_neg (by simpa using hempty)]
          exact ⟨fun hc => hinv hc, hrest⟩
        · rw [hadv, if_pos (by simpa using hempty)]
          by_cases h1 : (stripLine l).head? = some '@'
          · have hpc : Parser.parseCommand ⟨rest, eof0, stripLine l, ct0, sym0, d0, c0, j0⟩ =
                ⟨rest, eof0, stripLine l, some CommandType.A_COMMAND,
                  (stripLine l).drop 1, d0, c0, j0⟩ := by
              simp [Parser.parseCommand, h1]
            rw [hpc]
            refine ⟨?_, hrest⟩
            intro hc
            simp at hc
          · by_cases h2 : (stripLine l).head? = some '(' ∧ (stripLine l).getLast? = some ')'
            · have hpc : Parser.parseCommand ⟨rest, eof0, stripLine l, ct0, sym0, d0, c0, j0⟩ =
                  ⟨rest, eof0, stripLine l, some CommandType.L_COMMAND,
                    ((stripLine l).drop 1).take ((stripLine l).length - 2), d0, c0, j0⟩ := by
                simp [Parser.parseCommand, h1, h2]
              rw [hpc]
              refine ⟨?_, hrest⟩
              intro hc
              simp at hc
            · by_cases h3 : posOf '=' (stripLine l) ≠ npos ∨ posOf ';' (stripLine l) ≠ npos
              · have hpc : Parser.parseCommand ⟨rest, eof0, stripLine l, ct0, sym0, d0, c0, j0⟩ =
                    Parser.parseCCommand
                      ⟨rest, eof0, stripLine l, some CommandType.C_COMMAND, sym0, d0, c0, j0⟩ := by
                  simp [Parser.parseCommand, h1, h2, h3]
                rw [hpc]
                refine ⟨?_, hrest⟩
                intro _
                have hdom : inDestDomain (parseCFields (stripLine l)).1 = true ∧
                    inCompDomain (parseCFields (stripLine l)).2.1 = true ∧
                    inJumpDomain (parseCFields (stripLine l)).2.2 = true := by
                  have hg := hgood
                  simp only [lineCGood] at hg
                  rw [if_neg (by simpa using hempty), if_neg h1, if_neg h2, if_pos h3] at hg
                  simpa [Bool.and_eq_true, and_assoc] using hg
                exact hdom
              · have hpc : Parser.parseCommand ⟨rest, eof0, stripLine l, ct0, sym0, d0, c0, j0⟩ =
                    ⟨rest, eof0, stripLine l, some CommandType.INVALID_COMMAND,
                      sym0, d0, c0, j0⟩ := by
                  simp [Parser.parseCommand, h1, h2, h3]
                rw [hpc]
                refine ⟨?_, hrest⟩
                intro hc
                simp at hc
  · have hadv : Parser.advance ⟨lines0, eof0, cc0, ct0, sym0, d0, c0, j0⟩ =
        ⟨lines0, eof0, cc0, ct0, sym0, d0, c0, j0⟩ := by
      simp only [Parser.advance]
      rw [if_neg hm]
    rw [hadv]
    exact ⟨hinv, hl⟩

/-- The second-pass loop only appends well-formed 16-bit lines when the
invariant holds and the remaining lines are benign. -/
theorem secondPassLoop_lineOk :
    ∀ (fuel : Nat) (st : ParserState) (symt : SymbolTable) (out : List Str),
      (∀ l ∈ st.lines, lineCGood l = true) → cInv st →
      (∀ o ∈ out, lineOk o = true) →
      ∀ o ∈ Assembler.secondPassLoop fuel st symt out, lineOk o = true := by
  intro fuel
  induction fuel with
  | zero =>
      intro st symt out _ _ hout o ho
      exact hout o (by simpa [Assembler.secondPassLoop] using ho)
  | succ n ih =>
      intro st symt out hl hinv hout o ho
      by_cases hm : Parser.hasMoreCommands st = true
      · obtain ⟨hinv', hl'⟩ := advance_cInv st hl hinv
        rw [Assembler.secondPassLoop, if_pos hm] at ho
        cases hct : (Parser.advance st).commandType with
        | none =>
            simp only [hct] at ho
            exact ih _ _ _ hl' hinv' hout o ho
        | some ct =>
            cases ct with
            | A_COMMAND =>
                simp only [hct] at ho
                refine ih _ _ _ hl' hinv' ?_ o ho
                intro o' ho'
                rcases List.mem_append.mp ho' with h | h
                · exact hout o' h
                · rcases List.mem_singleton.mp h with rfl
                  exact emitA_lineOk _
            | C_COMMAND =>
                simp only [hct] at ho
                obtain ⟨hd, hc, hj⟩ := hinv' hct
                refine ih _ _ _ hl' hinv' ?_ o ho
                intro o' ho'
                rcases List.mem_append.mp ho' with h | h
                · exact hout o' h
                · rcases List.mem_singleton.mp h with rfl
                  exact cEmit_lineOk _ _ _ hd hc hj
            | L_COMMAND =>
                simp only [hct] at ho
                exact ih _ _ _ hl' hinv' hout o ho
            | INVALID_COMMAND =>
                simp only [hct] at ho
                exact ih _ _ _ hl' hinv' hout o ho
      · rw [Assembler.secondPassLoop, if_neg hm] at ho
        exact hout o ho

/-- C2 (amended): for every input program in which every line that is
classified as a compute command carries destination, computation and jump
mnemonics present in the encoder tables, every line the assembler emits is
exactly 16 characters, each '0' or '1'.  (Without the mnemonic restriction
the claim is false: see the `D=X` counterexample.) -/
theorem assemble_lines_are_16_bits (ls : List Str)
    (h : ∀ l ∈ ls, lineCGood l = true) :
    ∀ o ∈ Assembler.assemble ls, lineOk o = true := by
  intro o ho
  refine secondPassLoop_lineOk (ls.length + 1) (Parser.initState ls)
      (Assembler.firstPass ls SymbolTable.init) [] ?_ ?_ ?_ o ?_
  · simpa [Parser.initState] using h
  · intro hc
    simp [Parser.initState] at hc
  · intro o' ho'
    cases ho'
  · simpa [Assembler.assemble, Assembler.secondPass] using ho

/-- Witness for `assemble_lines_are_16_bits` on the program `D=A`. -/
theorem assemble_lines_are_16_bits_witness :
    lineOk ("1110110000010000".data) = true :=
  assemble_lines_are_16_bits ["D=A".data] (by decide) ("1110110000010000".data) (by decide)

/-- `parseCommand` touches neither the stream position nor the eof bit. -/
theorem parseCommand_lines_eofbit (st : ParserState) :
    (Parser.parseCommand st).lines = st.lines ∧
    (Parser.parseCommand st).eofbit = st.eofbit := by
  by_cases h1 : st.currentCommand.head? = some '@'
  · simp [Parser.parseCommand, h1]
  · by_cases h2 : st.currentCommand.head? = some '(' ∧ st.currentCommand.getLast? = some ')'
    · simp [Parser.parseCommand, h1, h2]
    · by_cases h3 : posOf '=' st.currentCommand ≠ npos ∨ posOf ';' st.currentCommand ≠ npos
      · simp [Parser.parseCommand, h1, h2, h3, Parser.parseCCommand]
      · simp [Parser.parseCommand, h1, h2, h3]

/-- Each loop iteration consumes a line or sets the eof bit, so the measure
strictly decreases: the C++ `while` loops terminate, and the fuel
`lines + 1` supplied by the pass wrappers is always sufficient. -/
theorem advance_measure (st : ParserState) (hm : Parser.hasMoreCommands st = true) :
    loopMeasure (Parser.advance st) < loopMeasure st := by
  obtain ⟨lines0, eof0, cc0, ct0, sym0, d0, c0, j0⟩ := st
  have heof : eof0 = false := by simpa [Parser.hasMoreCommands] using hm
  subst heof
  cases lines0 with
  | nil =>
      have h : Parser.advance ⟨[], false, cc0, ct0, sym0, d0, c0, j0⟩ =
          ⟨[], true, [], ct0, sym0, d0, c0, j0⟩ := by
        simp [Parser.advance, Parser.hasMoreCommands, Parser.getline, stripLine, cutComment]
      rw [h]
      simp [loopMeasure]
  | cons l rest =>
      have h : Parser.advance ⟨l :: rest, false, cc0, ct0, sym0, d0, c0, j0⟩ =
          (if stripLine l ≠ [] then
             Parser.parseCommand ⟨rest, false, stripLine l, ct0, sym0, d0, c0, j0⟩
           else ⟨rest, false, stripLine l, ct0, sym0, d0, c0, j0⟩) := by
        simp [Parser.advance, Parser.hasMoreCommands, Parser.getline]
      rw [h]
      by_cases hemp : stripLine l ≠ []
      · rw [if_pos hemp]
        obtain ⟨hl', he'⟩ :=
          parseCommand_lines_eofbit ⟨rest, false, stripLine l, ct0, sym0, d0, c0, j0⟩
        simp [loopMeasure, hl', he']
      · rw [if_neg hemp]
        simp [loopMeasure]

/-- The second-pass loop result is independent of the fuel, once the fuel is
at least the loop measure: the fuel convention is canonical. -/
theorem secondPassLoop_fuel_stable :
    ∀ (f1 f2 : Nat) (st : ParserState) (symt : SymbolTable) (out : List Str),
      loopMeasure st ≤ f1 → loopMeasure st ≤ f2 →
      Assembler.secondPassLoop f1 st symt out = Assembler.secondPassLoop f2 st symt out := by
  intro f1
  induction f1 with
  | zero =>
      intro f2 st symt out h1 h2
      have heof : st.eofbit = true := by
        by_contra hb
        have hb' : st.eofbit = false := by simpa using hb
        simp [loopMeasure, hb'] at h1
      have hm : Parser.hasMoreCommands st = false := by
        simp [Parser.hasMoreCommands, heof]
      cases f2 with
      | zero => rfl
      | succ m => simp [Assembler.secondPassLoop, hm]
  | succ n ih =>
      intro f2 st symt out h1 h2
      by_cases hmc : Parser.hasMoreCommands st = true
      · have hlt := advance_measure st hmc
        cases f2 with
        | zero =>
            exfalso
            have hb : st.eofbit = false := by simpa [Parser.hasMoreCommands] using hmc
            simp [loopMeasure, hb] at h2
        | succ m =>
            have hA : loopMeasure (Parser.advance st) ≤ n := by omega
            have hB : loopMeasure (Parser.advance st) ≤ m := by omega
            rw [Assembler.secondPassLoop, Assembler.secondPassLoop, if_pos hmc, if_pos hmc]
            cases hct : (Parser.advance st).commandType with
            | none => simp only [hct]; exact ih m _ _ _ hA hB
            | some ct =>
                cases ct with
                | A_COMMAND => simp only [hct]; exact ih m _ _ _ hA hB
                | C_COMMAND => simp only [hct]; exact ih m _ _ _ hA hB
                | L_COMMAND => simp only [hct]; exact ih m _ _ _ hA hB
                | INVALID_COMMAND => simp only [hct]; exact ih m _ _ _ hA hB
      · have hm : Parser.hasMoreCommands st = false := by simpa using hmc
        cases f2 with
        | zero => simp [Assembler.secondPassLoop, hm]
        | succ m => simp [Assembler.secondPassLoop, hm]

/-- The first-pass loop result is independent of the fuel, once the fuel is
at least the loop measure. -/
theorem firstPassLoop_fuel_stable :
    ∀ (f1 f2 : Nat) (st : ParserState) (symt : SymbolTable) (rom : Int),
      loopMeasure st ≤ f1 → loopMeasure st ≤ f2 →
      Assembler.firstPassLoop f1 st symt rom = Assembler.firstPassLoop f2 st symt rom := by
  intro f1
  induction f1 with
  | zero =>
      intro f2 st symt rom h1 h2
      have heof : st.eofbit = true := by
        by_contra hb
        have hb' : st.eofbit = false := by simpa using hb
        simp [loopMeasure, hb'] at h1
      have hm : Parser.hasMoreCommands st = false := by
        simp [Parser.hasMoreCommands, heof]
      cases f2 with
      | zero => rfl
      | succ m => simp [Assembler.firstPassLoop, hm]
  | succ n ih =>
      intro f2 st symt rom h1 h2
      by_cases hmc : Parser.hasMoreCommands st = true
      · have hlt := advance_measure st hmc
        cases f2 with
        | zero =>
            exfalso
            have hb : st.eofbit = false := by simpa [Parser.hasMoreCommands] using hmc
            simp [loopMeasure, hb] at h2
        | succ m =>
            have hA : loopMeasure (Parser.advance st) ≤ n := by omega
            have hB : loopMeasure (Parser.advance st) ≤ m := by omega
            rw [Assembler.firstPassLoop, Assembler.firstPassLoop, if_pos hmc, if_pos hmc]
            cases hct : (Parser.advance st).commandType with
            | none => simp only [hct]; exact ih m _ _ _ hA hB
            | some ct =>
                cases ct with
                | A_COMMAND => simp only [hct]; exact ih m _ _ _ hA hB
                | C_COMMAND => simp only [hct]; exact ih m _ _ _ hA hB
                | L_COMMAND => simp only [hct]; exact ih m _ _ _ hA hB
                | INVALID_COMMAND => simp only [hct]; exact ih m _ _ _ hA hB
      · have hm : Parser.hasMoreCommands st = false := by simpa using hmc
        cases f2 with
        | zero => simp [Assembler.firstPassLoop, hm]
        | succ m => simp [Assembler.firstPassLoop, hm]
